import Mathlib

/-!
Verification of the MentOS interactive line editor (`src/libc/src/readline.c`)
and passphrase reader (`src/libc/src/readpasswd.c`) against their
natural-language specification.

Byte strings are modelled as `List Nat` (one `Nat` per byte), machine
`size_t` arithmetic is modelled on `Nat` with explicit 32-bit wrap where the
C code can underflow, and the 64-byte edit buffer is modelled as a total
function `Nat → Nat` (reads outside the written region return 0, matching
the zero-initialised buffer).
-/

/-- Byte strings: one natural number per byte. -/
abbrev Str := List Nat

/-- LINE_LEN from readline.c: capacity of the edit buffer and of each
history entry. -/
def LINE_LEN : Nat := 64

/-- HISTORY_MAX from readline.c: capacity of the history ring buffer. -/
def HISTORY_MAX : Nat := 10

/-- 32-bit `size_t` subtraction with wrap-around (MentOS targets i386).
For `b ≤ a < 2^32` this is ordinary subtraction; for `a < b` it wraps. -/
def size_sub (a b : Nat) : Nat := (a + 4294967296 - b % 4294967296) % 4294967296

/-- Result of `memmove(base + dst, base + src, n)` on a buffer modelled as a
total function: positions `[dst, dst+n)` receive the bytes previously at
`[src, src+n)`, everything else is unchanged. -/
def memmove_fn (b : Nat → Nat) (dst src n : Nat) : Nat → Nat :=
  fun j => if dst ≤ j ∧ j < dst + n then b (src + (j - dst)) else b j

/-- Write a single byte at index `i` (C `buf[i] = c`). -/
def upd_fn (b : Nat → Nat) (i c : Nat) : Nat → Nat :=
  fun j => if j = i then c else b j

/-- The C string held in the 64-byte buffer: the bytes before the first
zero among positions `0..63` (what `strdup`/`strcmp`/`strlen` see). -/
def cstring64 (b : Nat → Nat) : Str :=
  ((List.range LINE_LEN).map b).takeWhile (fun c => c ≠ 0)

/-- `strnlen(buf, 64)`: index of the first zero byte among positions
`0..63`, or 64 when there is none.  This equals the length of the C string
capped at the buffer size. -/
def strnlen64 (b : Nat → Nat) : Nat := (cstring64 b).length

/-- `strncpy(dest, src, 64)` where `src` is a stored byte string: the
bytes of `src` up to its first zero are copied and the remainder of the
64-byte region is zero-filled; bytes at index ≥ 64 are untouched. -/
def strncpy64 (b : Nat → Nat) (src : Str) : Nat → Nat :=
  fun j =>
    if j < LINE_LEN then (src.takeWhile (fun c => c ≠ 0)).getD j 0 else b j

/-- `__is_separator` from readline.c: NUL, space, tab, newline, carriage
return. -/
def is_separator (c : Nat) : Bool :=
  c = 0 || c = 32 || c = 9 || c = 10 || c = 13

/-- Inner loop of `__count_words` from readline.c.  The C do-while also
processes the terminating NUL (a separator), which is the `[]` case here
because `cstring64` strips the terminator. -/
def count_words_aux : Str → Bool → Nat
  | [], inword => if inword then 1 else 0
  | c :: rest, inword =>
    if is_separator c then (if inword then 1 else 0) + count_words_aux rest false
    else count_words_aux rest true

/-- `__count_words` from readline.c on a (non-NULL) C string. -/
def count_words (s : Str) : Nat := count_words_aux s false

/- ---------------------------------------------------------------------
History ring buffer.

`ring_buffer.h` (the DECLARE_FIXED_SIZE_2D_RING_BUFFER macro) is not part
of the provided sources; the `rb_history_*` primitives below are modelled
from the spec.  `history_push` and `history_fetch` themselves are
translated from readline.c.
--------------------------------------------------------------------- -/

/-- The process-global history state of readline.c: the ring buffer
(`history`: a fixed array of `HISTORY_MAX` entries plus `count` and
`tail`) together with the read cursor `history_cursor_index`. -/
structure HState where
  bufs : List Str
  count : Nat
  tail : Nat
  cursor : Nat

/-- Modelled from the spec: `rb_history_peek_back` returns the newest
entry (the entry at logical index `count - 1`, physical index
`(tail + count - 1) % HISTORY_MAX`), and fails on an empty history. -/
def rb_history_peek_back (h : HState) : Option Str :=
  if h.count = 0 then none
  else some (h.bufs.getD ((h.tail + h.count - 1) % HISTORY_MAX) [])

/-- Modelled from the spec: `rb_history_push_back` appends a copy of the
entry (truncated to LINE_LEN bytes, as the strncpy-based entry copy does);
once full, the oldest entry (at `tail`) is overwritten and `tail`
advances. -/
def rb_history_push_back (h : HState) (s : Str) : HState :=
  if h.count < HISTORY_MAX then
    { h with
      bufs := h.bufs.set ((h.tail + h.count) % HISTORY_MAX) (s.take LINE_LEN)
      count := h.count + 1 }
  else
    { h with
      bufs := h.bufs.set (h.tail % HISTORY_MAX) (s.take LINE_LEN)
      tail := (h.tail + 1) % HISTORY_MAX }

/-- Modelled from the spec: the initial (empty) history produced by
`rb_history_init`, with the read cursor at its static initial value 0. -/
def hist_init : HState :=
  { bufs := List.replicate HISTORY_MAX [], count := 0, tail := 0, cursor := 0 }

/-- `history_push` from readline.c, acting on the history state; `s` is
the C string currently in the line buffer.  When history is disabled it is
a no-op; when `s` equals the newest entry it is a no-op (dedup; note the
read cursor is not reset on this path); otherwise the entry is pushed and
the read cursor is set to `count` (fresh position). -/
def history_push (use_history : Bool) (h : HState) (s : Str) : HState :=
  if use_history = false then h
  else
    match rb_history_peek_back h with
    | some prev =>
      if prev = s then h
      else
        let h' := rb_history_push_back h s
        { h' with cursor := h'.count }
    | none =>
      let h' := rb_history_push_back h s
      { h' with cursor := h'.count }

/-- `history_fetch` from readline.c.  `dir` is the arrow byte (65 = 'A' =
UP, 66 = 'B' = DOWN).  Returns the fetched entry (none on an empty
history, or when DOWN lands on `count`) together with the updated
state. -/
def history_fetch (h : HState) (dir : Nat) : Option Str × HState :=
  if h.count = 0 then (none, h)
  else
    let cur' :=
      if dir = 65 ∧ 0 < h.cursor then h.cursor - 1
      else if dir = 66 ∧ h.cursor < h.count then h.cursor + 1
      else h.cursor
    let h' := { h with cursor := cur' }
    if dir = 66 ∧ cur' = h.count then (none, h')
    else (some (h.bufs.getD ((h.tail + cur') % HISTORY_MAX) []), h')

/-- Iterated `history_fetch` in a fixed direction, keeping only the state
(the readline loop discards the returned entry pointer between presses). -/
def fetch_iter (dir : Nat) : Nat → HState → HState
  | 0, h => h
  | n + 1, h => fetch_iter dir n (history_fetch h dir).2

/- ---------------------------------------------------------------------
Filesystem interface and the completion engine (readline.c).
--------------------------------------------------------------------- -/

/-- A directory entry as returned by `getdents`: name and type. -/
structure Dirent where
  d_name : Str
  d_type : Nat
deriving DecidableEq

/-- Modelled from the spec: the `DT_REG` entry-kind constant (regular
file); `dirent.h` is not part of the provided sources.  The concrete
value only needs to be nonzero and distinct from `DT_DIR`. -/
def DT_REG : Nat := 8

/-- Modelled from the spec: the `DT_DIR` entry-kind constant
(directory). -/
def DT_DIR : Nat := 4

/-- The filesystem as consumed by the completion engine: an association
list from directory path to the directory's entries, in `getdents`
enumeration order. -/
abbrev FS := List (Str × List Dirent)

/-- Directory lookup (the `open(folder, O_RDONLY | O_DIRECTORY)` step):
the first association whose path equals `folder`, or failure. -/
def fs_lookup (fs : FS) (folder : Str) : Option (List Dirent) :=
  (fs.find? (fun p => p.1 = folder)).map (fun p => p.2)

/-- `__folder_contains` from readline.c: open `folder`, fail on an empty
entry name, and otherwise return the first directory entry that matches
the accepted type (0 accepts every type) and has `entry` as a name
prefix (`strncmp(entry, d_name, strlen(entry)) == 0`). -/
def folder_contains (fs : FS) (folder entry : Str) (accepted_type : Nat) :
    Option Dirent :=
  match fs_lookup fs folder with
  | none => none
  | some entries =>
    if entry.length = 0 then none
    else
      entries.find? (fun d =>
        (accepted_type = 0 || accepted_type = d.d_type) &&
          entry.isPrefixOf d.d_name)

/-- Modelled from the spec: `tokenize(PATH, ":", ...)` splits the PATH
variable at colons (byte 58); accumulator-based splitter. -/
def tokenize_colon_aux : Str → Str → List Str
  | [], acc => [acc.reverse]
  | c :: rest, acc =>
    if c = 58 then acc.reverse :: tokenize_colon_aux rest []
    else tokenize_colon_aux rest (c :: acc)

/-- Modelled from the spec: colon-splitting of the PATH variable. -/
def tokenize_colon (s : Str) : List Str := tokenize_colon_aux s []

/-- The default PATH used when the environment variable is unset, the
byte string for the text /bin:/usr/bin. -/
def default_PATH : Str := [47, 98, 105, 110, 58, 47, 117, 115, 114, 47, 98, 105, 110]

/-- `__search_in_path` from readline.c: use PATH (or the default when
unset), and return the first regular-file prefix match found, first
directory first. -/
def search_in_path (fs : FS) (path_var : Option Str) (entry : Str) :
    Option Dirent :=
  let PATH_VAR := path_var.getD default_PATH
  (tokenize_colon PATH_VAR).findSome? (fun dir =>
    folder_contains fs dir entry DT_REG)

/-- Modelled from the spec: `basename` — the path component after the
last slash (byte 47), or the whole path when it has no slash. -/
def basename_spec (s : Str) : Str := (s.reverse.takeWhile (fun c => c ≠ 47)).reverse

/-- Modelled from the spec: `dirname` — the parent component before the
last slash; empty when the path has no slash, the root slash itself when
the last slash is the leading one. -/
def dirname_spec (s : Str) : Str :=
  if 47 ∈ s then
    let d := s.take (s.length - (basename_spec s).length - 1)
    if d = [] then [47] else d
  else []

/-- `strrchr(s, ' ')` followed by the `+ 1` adjustment in
readline_complete: the suffix after the last space, or none when the
string has no space. -/
def strrchr_space (s : Str) : Option Str :=
  if 32 ∈ s then some ((s.reverse.takeWhile (fun c => c ≠ 32)).reverse) else none

/- ---------------------------------------------------------------------
Editor state and buffer operations (readline.c).
--------------------------------------------------------------------- -/

/-- The editor state during a read session: the line entry buffer
(`line.buffer`, 64 bytes, modelled as a total function), the cursor
index, the length, the insert-mode flag, and the history state
(`history` plus `history_cursor_index`). -/
structure RLState where
  line : Nat → Nat
  cursor : Nat
  length : Nat
  insertActive : Bool
  hist : HState

/-- The environment a read session consumes: the filesystem, the PATH
variable, the current working directory, and the `use_history` flag. -/
structure RLEnv where
  fs : FS
  pathVar : Option Str
  cwd : Str
  useHistory : Bool

/-- `readline_append` from readline.c: reject when the cursor is at or
past the buffer size; otherwise write the byte at the cursor, advance the
cursor and the length; when the cursor reaches `LINE_LEN - 1` the buffer
is NUL-terminated and the function reports that the buffer is full
(return value 1, the Bool here). -/
def readline_append (st : RLState) (c : Nat) : RLState × Bool :=
  if LINE_LEN ≤ st.cursor then (st, true)
  else
    let st' := { st with
      line := upd_fn st.line st.cursor c
      cursor := st.cursor + 1
      length := st.length + 1 }
    if st'.cursor = LINE_LEN - 1 then
      ({ st' with line := upd_fn st'.line (LINE_LEN - 1) 0 }, true)
    else (st', false)

/-- `readline_clear` from readline.c: on the (unreachable) error guard
`cursor_index > length` nothing is cleared; otherwise the 64-byte buffer
is zeroed (`memset`) and cursor and length are reset. -/
def readline_clear (st : RLState) : RLState :=
  if st.length < st.cursor then st
  else
    { st with
      line := fun j => if j < LINE_LEN then 0 else st.line j
      cursor := 0
      length := 0 }

/-- The for-loop of `readline_suggest`, iterating over the bytes of the
suggested name from the offset on (`chars = filename.drop offset`).
A nonzero byte under the cursor that differs from the suggestion aborts
the whole suggestion (C `return`, the `true` flag); a nonzero, matching,
non-space byte advances the cursor in place; otherwise the byte is
appended, stopping (without aborting) when the buffer fills. -/
def suggest_loop (st : RLState) : Str → RLState × Bool
  | [] => (st, false)
  | ch :: chs =>
    if st.line st.cursor ≠ 0 then
      if st.line st.cursor ≠ ch then (st, true)
      else if st.line st.cursor ≠ 32 then
        suggest_loop { st with cursor := st.cursor + 1 } chs
      else
        let ap := readline_append st ch
        if ap.2 then (ap.1, false) else suggest_loop ap.1 chs
    else
      let ap := readline_append st ch
      if ap.2 then (ap.1, false) else suggest_loop ap.1 chs

/-- `readline_suggest` from readline.c: run the suggestion loop; unless
it aborted on a mismatch, append a trailing slash when the suggestion is
a directory whose last inserted byte is not already a slash. -/
def readline_suggest (st : RLState) (filename : Str) (filetype offset : Nat) :
    RLState :=
  let r := suggest_loop st (filename.drop offset)
  if r.2 then r.1
  else if filetype = DT_DIR ∧ r.1.line (r.1.cursor - 1) ≠ 47 then
    (readline_append r.1 47).1
  else r.1

/-- The dispatch of `readline_complete` from the `getcwd` call on (the C
code past line 336), acting on the buffer state `st1` left by the
possible `..`-append, with `words` counted from the original buffer:
complete a `./`-run from the cwd, an absolute path via dirname/basename,
a bare command via the PATH search, or the last argument via
dirname/basename (or the cwd when the dirname is empty). -/
def readline_complete_core (env : RLEnv) (words : Nat) (st1 : RLState) :
    RLState :=
  let buf1 := cstring64 st1.line
  let is_run_cmd := 2 ≤ st1.cursor ∧ st1.line 0 = 46 ∧ st1.line 1 = 47
  let is_abs_path := 1 ≤ st1.cursor ∧ st1.line 0 = 47
  if is_run_cmd then
    match folder_contains env.fs env.cwd (buf1.drop 2) 0 with
    | some d => readline_suggest st1 d.d_name d.d_type (st1.cursor - 2)
    | none => st1
  else if is_abs_path then
    let dn := dirname_spec buf1
    let bn := basename_spec buf1
    if dn = [] ∨ bn = [] then st1
    else
      match folder_contains env.fs dn bn 0 with
      | some d => readline_suggest st1 d.d_name d.d_type bn.length
      | none => st1
  else if words = 1 then
    match search_in_path env.fs env.pathVar buf1 with
    | some d => readline_suggest st1 d.d_name d.d_type st1.cursor
    | none => st1
  else
    match strrchr_space buf1 with
    | none => st1
    | some last_argument =>
      let dn := dirname_spec last_argument
      let bn := basename_spec last_argument
      if dn ≠ [] ∧ bn ≠ [] then
        match folder_contains env.fs dn bn 0 with
        | some d => readline_suggest st1 d.d_name d.d_type bn.length
        | none => st1
      else if bn ≠ [] then
        match folder_contains env.fs env.cwd bn 0 with
        | some d => readline_suggest st1 d.d_name d.d_type bn.length
        | none => st1
      else st1

/-- `readline_complete` from readline.c: nothing on an empty buffer or
when the byte left of the cursor is a separator; append a slash after a
trailing `..` (aborting if that append reports a full buffer) and
continue into the dispatch above.  The C int return value is dropped;
only the state matters to the caller. -/
def readline_complete (env : RLEnv) (st : RLState) : RLState :=
  let words := count_words (cstring64 st.line)
  if words = 0 then st
  else if is_separator (st.line (st.cursor - 1)) then st
  else
    let dots := 2 ≤ st.cursor ∧ st.line (st.cursor - 1) = 46 ∧
      st.line (st.cursor - 2) = 46
    let ap := if dots then readline_append st 47 else (st, false)
    if ap.2 then ap.1
    else readline_complete_core env words ap.1

/- ---------------------------------------------------------------------
The readline event loop (readline.c, `readline`).
--------------------------------------------------------------------- -/

/-- The first while-loop of the CTRL+RIGHT handler, with explicit fuel
(the loop moves the cursor at most `length` positions, so `length` fuel is
always enough): advance `cur` while it is below `len` and the byte under
it satisfies `p`. -/
def skip_right_fuel : Nat → (Nat → Nat) → Nat → Nat → (Nat → Bool) → Nat
  | 0, _, _, cur, _ => cur
  | f + 1, line, len, cur, p =>
    if cur < len ∧ p (line cur) then skip_right_fuel f line len (cur + 1) p
    else cur

/-- CTRL+RIGHT from readline.c: skip spaces, then skip the word. -/
def word_right (st : RLState) : Nat :=
  let c1 := skip_right_fuel st.length st.line st.length st.cursor
    (fun b => b == 32)
  skip_right_fuel st.length st.line st.length c1 (fun b => b != 32)

/-- One while-loop of the CTRL+LEFT handler: move `cur` down while it is
positive and the byte left of it satisfies `p`. -/
def skip_left (line : Nat → Nat) (p : Nat → Bool) : Nat → Nat
  | 0 => 0
  | k + 1 => if p (line k) then skip_left line p k else k + 1

/-- CTRL+LEFT from readline.c: skip spaces leftwards, then the word. -/
def word_left (st : RLState) : Nat :=
  let c1 := skip_left st.line (fun b => b == 32) st.cursor
  skip_left st.line (fun b => b != 32) c1

/-- BACKSPACE (byte 0x08) from readline.c: when the cursor is positive,
decrement length and cursor (`size_t` arithmetic) and shift the rest of
the buffer left over the removed byte. -/
def rl_backspace (st : RLState) : RLState :=
  if 0 < st.cursor then
    let len' := size_sub st.length 1
    let cur' := st.cursor - 1
    { st with
      line := memmove_fn st.line cur' (cur' + 1) (size_sub len' cur' + 1)
      cursor := cur'
      length := len' }
  else st

/-- DELETE (CSI `3~`) from readline.c: when the cursor is before the end,
decrement length and shift the suffix left over the byte at the cursor. -/
def rl_delete (st : RLState) : RLState :=
  if st.cursor < st.length then
    let len' := st.length - 1
    { st with
      line := memmove_fn st.line st.cursor (st.cursor + 1)
        (size_sub len' st.cursor + 1)
      length := len' }
  else st

/-- LEFT ARROW from readline.c: bounded cursor decrement. -/
def rl_left (st : RLState) : RLState :=
  if 0 < st.cursor then { st with cursor := st.cursor - 1 } else st

/-- RIGHT ARROW from readline.c: bounded cursor increment. -/
def rl_right (st : RLState) : RLState :=
  if st.cursor < st.length then { st with cursor := st.cursor + 1 } else st

/-- HOME from readline.c: cursor to the start. -/
def rl_home (st : RLState) : RLState := { st with cursor := 0 }

/-- END from readline.c: cursor to the end. -/
def rl_end (st : RLState) : RLState := { st with cursor := st.length }

/-- UP/DOWN ARROW from readline.c: clear the current command, fetch the
history entry in direction `dir` (65/66); when an entry is returned, copy
it into the line buffer (`rb_history_entry_copy`, a strncpy) and set the
cursor and length to its `strnlen`. -/
def rl_histnav (st : RLState) (dir : Nat) : RLState :=
  let st1 := readline_clear st
  let f := history_fetch st1.hist dir
  let st2 := { st1 with hist := f.2 }
  match f.1 with
  | some e =>
    let line' := strncpy64 st2.line e
    let n := strnlen64 line'
    { st2 with line := line', cursor := n, length := n }
  | none => st2

/-- The default (printable) branch of the readline loop: outside insert
mode, when `cursor_index < length - 1` (a `size_t` comparison, hence true
for `length = 0`) the buffer is shifted right to make room; the byte is
then appended (the Bool reports a full buffer ending the session); in
insert mode the length increment of the append is undone unless the
cursor was at the end of the line. -/
def rl_printable (st : RLState) (c : Nat) : RLState × Bool :=
  let stA :=
    if st.insertActive then st
    else if st.cursor < size_sub st.length 1 then
      { st with
        line := memmove_fn st.line (st.cursor + 1) st.cursor
          (size_sub st.length st.cursor + 1) }
    else st
  let ap := readline_append stA c
  if ap.2 then (ap.1, true)
  else if st.insertActive ∧ ap.1.cursor < ap.1.length then
    ({ ap.1 with length := ap.1.length - 1 }, false)
  else (ap.1, false)

/-- How one iteration of the readline loop ends. -/
inductive RLExit
  | enter
  | eof
  | ctrlC
  | full
  | oob
deriving DecidableEq

/-- Result of one loop iteration: the updated state, the input bytes not
yet consumed, and the session exit if this iteration ended it (`oob`
marks input exhausted mid-escape, where the blocking C `getchar` has no
byte to return). -/
structure IterOut where
  st : RLState
  rest : List Nat
  exit : Option RLExit

/-- The CSI dispatch of the readline loop: the byte after `ESC [` has
been read as `c3`; recognise arrows, home/end, and the `2~`/`3~`/`5~`/
`6~`/`1;5C`/`1;5D` forms, consuming their continuation bytes exactly as
the inline `getchar` calls do; unrecognised bytes are consumed and
ignored. -/
def rl_iter_csi (env : RLEnv) (st : RLState) (c3 : Nat) (rest3 : List Nat) :
    IterOut :=
  if c3 = 65 ∨ c3 = 66 then ⟨rl_histnav st c3, rest3, none⟩
  else if c3 = 68 then ⟨rl_left st, rest3, none⟩
  else if c3 = 67 then ⟨rl_right st, rest3, none⟩
  else if c3 = 72 then ⟨rl_home st, rest3, none⟩
  else if c3 = 70 then ⟨rl_end st, rest3, none⟩
  else if c3 = 50 then
    match rest3 with
    | [] => ⟨st, [], some RLExit.oob⟩
    | c4 :: rest4 =>
      ⟨if c4 = 126 then { st with insertActive := !st.insertActive }
        else st, rest4, none⟩
  else if c3 = 51 then
    match rest3 with
    | [] => ⟨st, [], some RLExit.oob⟩
    | c4 :: rest4 => ⟨if c4 = 126 then rl_delete st else st, rest4, none⟩
  else if c3 = 53 ∨ c3 = 54 then
    match rest3 with
    | [] => ⟨st, [], some RLExit.oob⟩
    | _ :: rest4 => ⟨st, rest4, none⟩
  else if c3 = 49 then
    match rest3 with
    | [] => ⟨st, [], some RLExit.oob⟩
    | c4 :: rest4 =>
      if c4 = 59 then
        match rest4 with
        | [] => ⟨st, [], some RLExit.oob⟩
        | c5 :: rest5 =>
          if c5 = 53 then
            match rest5 with
            | [] => ⟨st, [], some RLExit.oob⟩
            | c6 :: rest6 =>
              if c6 = 67 then ⟨{ st with cursor := word_right st }, rest6, none⟩
              else if c6 = 68 then
                ⟨{ st with cursor := word_left st }, rest6, none⟩
              else ⟨st, rest6, none⟩
          else ⟨st, rest5, none⟩
      else ⟨st, rest4, none⟩
  else ⟨st, rest3, none⟩

/-- The escape branch of the readline loop: after the 0x1B byte, read the
next byte; a `[` enters CSI decoding, anything else is consumed and
ignored. -/
def rl_iter_esc (env : RLEnv) (st : RLState) (rest : List Nat) : IterOut :=
  match rest with
  | [] => ⟨st, [], some RLExit.oob⟩
  | c2 :: rest2 =>
    if c2 = 91 then
      match rest2 with
      | [] => ⟨st, [], some RLExit.oob⟩
      | c3 :: rest3 => rl_iter_csi env st c3 rest3
    else ⟨st, rest2, none⟩

/-- One iteration of the readline do-while loop: read byte `c` and
dispatch exactly as readline.c does, consuming further bytes of `rest`
inline while decoding escape sequences. -/
def rl_iter (env : RLEnv) (st : RLState) (c : Nat) (rest : List Nat) :
    IterOut :=
  if c = 4 then ⟨st, rest, some RLExit.eof⟩
  else if c = 10 then ⟨st, rest, some RLExit.enter⟩
  else if c = 8 then ⟨rl_backspace st, rest, none⟩
  else if c = 9 then ⟨readline_complete env st, rest, none⟩
  else if c = 3 then ⟨st, rest, some RLExit.ctrlC⟩
  else if c = 21 then ⟨readline_clear st, rest, none⟩
  else if c = 27 then rl_iter_esc env st rest
  else
    if (rl_printable st c).2 then ⟨(rl_printable st c).1, rest, some RLExit.full⟩
    else ⟨(rl_printable st c).1, rest, none⟩

/-- Result of running the loop: the editor state after each completed
iteration (one entry per processed event), the final state, and how the
session ended. -/
structure RunOut where
  trace : List RLState
  final : RLState
  exit : RLExit

/-- The readline do-while loop.  Fuel-indexed so that every definition in
the development computes by kernel reduction; one iteration consumes at
least one input byte, so `input.length` fuel is always enough.  The loop
ends on an iteration-reported exit or, as in the C `while (length <
line.size)` condition, when the length has reached the buffer size. -/
def rl_run (env : RLEnv) : Nat → RLState → List Nat → RunOut
  | 0, st, _ => ⟨[], st, RLExit.oob⟩
  | _ + 1, st, [] => ⟨[], st, RLExit.oob⟩
  | fuel + 1, st, c :: rest =>
    let o := rl_iter env st c rest
    match o.exit with
    | some k => ⟨[o.st], o.st, k⟩
    | none =>
      if o.st.length < LINE_LEN then
        let r := rl_run env fuel o.st o.rest
        ⟨o.st :: r.trace, r.final, r.exit⟩
      else ⟨[o.st], o.st, RLExit.full⟩

/-- Terminal attributes, reduced to the local-mode bits the reader
touches (`ICANON`, `ECHO`, `ISIG`) plus an opaque remainder standing for
every other bit of the termios snapshot. -/
structure Termios where
  icanon : Bool
  echo : Bool
  isig : Bool
  restBits : Nat
deriving DecidableEq

/-- Everything observable about one readline session: the returned
pointer (`none` models the NULL return of the Ctrl+C path), the final
history, the sequence of `tcsetattr` writes performed, and the loop
trace/final state/exit used by the invariant statements. -/
structure ReadlineOut where
  result : Option Str
  hist : HState
  tcLog : List Termios
  trace : List RLState
  final : RLState
  exit : RLExit

/-- The session-start editor state: zeroed line buffer
(`rb_history_init_entry`), cursor and length 0, insert mode off, with the
process-global history carried in. -/
def rl_init_state (h : HState) : RLState :=
  { line := fun _ => 0, cursor := 0, length := 0, insertActive := false
    hist := h }

/-- `readline` from readline.c.  On entry the terminal attributes are
read and rewritten with `ICANON`, `ECHO` and `ISIG` cleared.  After the
loop — except on the Ctrl+C path, which returns NULL immediately, and the
out-of-input artifact — the line is pushed to the history (when enabled),
the current attributes are re-read, the three bits are set again and
written back, and a fresh copy of the buffer's C string is returned. -/
def readline (env : RLEnv) (t0 : Termios) (h0 : HState) (input : List Nat) :
    ReadlineOut :=
  let tRaw := { t0 with icanon := false, echo := false, isig := false }
  let r := rl_run env input.length (rl_init_state h0) input
  match r.exit with
  | RLExit.ctrlC => ⟨none, r.final.hist, [tRaw], r.trace, r.final, r.exit⟩
  | RLExit.oob => ⟨none, r.final.hist, [tRaw], r.trace, r.final, r.exit⟩
  | _ =>
    let h' := history_push env.useHistory r.final.hist (cstring64 r.final.line)
    let tRestore := { tRaw with icanon := true, echo := true, isig := true }
    ⟨some (cstring64 r.final.line), h', [tRaw, tRestore], r.trace, r.final,
      r.exit⟩

/- ---------------------------------------------------------------------
The passphrase reader (readpasswd.c).
--------------------------------------------------------------------- -/

/-- RPWD_ECHO_ON from readpasswd.h (`1 << 2`). -/
def RPWD_ECHO_ON : Nat := 4

/-- State of the readpasswd loop: the caller's buffer and the write
index. -/
structure RPState where
  buf : Nat → Nat
  index : Nat

/-- Result of the readpasswd loop: whether `result` was set to the buffer
(success) or left NULL, plus the final buffer and index. -/
structure RPOut where
  success : Bool
  buf : Nat → Nat
  index : Nat

/-- The readpasswd do-while loop.  The `index < bufsiz` do-while
condition is checked before each iteration after the first; since the
loop is entered with `index = 0 < bufsiz`, checking it at the top of
every iteration is equivalent.  Enter stores success; `ESC [ x` is
swallowed; `ESC ^ C` breaks with the NULL result; `ESC ^ U` resets the
index; backspace decrements it; any other nonzero byte is stored, with
success returned once the buffer is full minus one. -/
def rp_run (bufsiz : Nat) : Nat → RPState → List Nat → RPOut
  | 0, st, _ => ⟨false, st.buf, st.index⟩
  | _ + 1, st, [] => ⟨false, st.buf, st.index⟩
  | fuel + 1, st, c :: rest =>
    if bufsiz ≤ st.index then ⟨false, st.buf, st.index⟩
    else if c = 10 then ⟨true, upd_fn st.buf st.index 0, st.index⟩
    else if c = 27 then
      match rest with
      | [] => ⟨false, st.buf, st.index⟩
      | c2 :: rest2 =>
        if c2 = 91 then
          match rest2 with
          | [] => ⟨false, st.buf, st.index⟩
          | _ :: rest3 => rp_run bufsiz fuel st rest3
        else if c2 = 94 then
          match rest2 with
          | [] => ⟨false, st.buf, st.index⟩
          | c3 :: rest3 =>
            if c3 = 67 then ⟨false, st.buf, st.index⟩
            else if c3 = 85 then rp_run bufsiz fuel { st with index := 0 } rest3
            else rp_run bufsiz fuel st rest3
        else rp_run bufsiz fuel st rest2
    else if c = 8 then
      rp_run bufsiz fuel
        (if 0 < st.index then { st with index := st.index - 1 } else st) rest
    else if c ≠ 0 then
      let st' : RPState := ⟨upd_fn st.buf st.index c, st.index + 1⟩
      if st'.index = bufsiz - 1 then ⟨true, upd_fn st'.buf st'.index 0, st'.index⟩
      else rp_run bufsiz fuel st' rest
    else rp_run bufsiz fuel st rest

/-- Result of `readpasswd`: `success = false` models the NULL return,
`einval` records the `errno = EINVAL` path, and `buf` is the
caller-supplied buffer as the function leaves it. -/
structure RPResult where
  success : Bool
  einval : Bool
  buf : Nat → Nat

/-- `readpasswd` from readpasswd.c: reject a zero-sized buffer with
EINVAL (buffer untouched); otherwise zero the buffer (`memset`), run the
loop, restore the terminal and return.  `flags` only affects echoing and
the termios bits, which the returned value does not depend on. -/
def readpasswd (bufsiz flags : Nat) (buf0 : Nat → Nat) (input : List Nat) :
    RPResult :=
  if bufsiz = 0 then ⟨false, true, buf0⟩
  else
    let bufZ : Nat → Nat := fun j => if j < bufsiz then 0 else buf0 j
    let r := rp_run bufsiz input.length ⟨bufZ, 0⟩ input
    ⟨r.success, false, r.buf⟩

/- ---------------------------------------------------------------------
Concrete fixtures and spec-side definitions used by the theorems.
--------------------------------------------------------------------- -/

/-- A minimal session environment: empty filesystem, unset PATH, root
cwd, history disabled. -/
def env0 : RLEnv := ⟨[], none, [47], false⟩

/-- A standard terminal state on session entry: canonical mode, echo and
signals on (the usual cooked-mode attributes). -/
def tios0 : Termios := ⟨true, true, true, 0⟩

/-- A filesystem with a directory /bin containing the single regular
file ls (spec scenario 6). -/
def fsLS : FS := [([47, 98, 105, 110], [⟨[108, 115], DT_REG⟩])]

/-- The environment for the PATH-completion scenario: the fsLS
filesystem with PATH unset. -/
def envLS : RLEnv := ⟨fsLS, none, [47], false⟩

/-- Follows the spec's words: the returned string with leading and
trailing whitespace trimmed.  Used to compare what the spec claims the
reader returns against what it actually returns. -/
def trim_ws (s : Str) : Str :=
  ((s.dropWhile is_separator).reverse.dropWhile is_separator).reverse

/-- Follows the spec's words: search the colon-separated PATH directories
(defaulting when unset) for the first entry that is a regular file and
has `entry` as a name prefix; the first directory with a match wins, and
within a directory the first matching entry wins. -/
def search_in_path_spec (fs : FS) (path_var : Option Str) (entry : Str) :
    Option Dirent :=
  (tokenize_colon (path_var.getD default_PATH)).findSome? (fun dir =>
    (fs_lookup fs dir).bind (fun entries =>
      entries.find? (fun d =>
        (d.d_type == DT_REG) && entry.isPrefixOf d.d_name)))

/-- Well-formedness of the history state that readline maintains: the
ring has exactly `HISTORY_MAX` entry slots and every stored entry is a
C string that fits the 64-byte entry buffer with its terminator (at most
63 bytes). -/
def HistWF (h : HState) : Prop :=
  h.bufs.length = HISTORY_MAX ∧ ∀ e ∈ h.bufs, e.length < LINE_LEN

/-- Every byte at or beyond the current length is zero: the buffer is
NUL-terminated at `length` and clean beyond it. -/
def ZerosFrom (st : RLState) : Prop :=
  ∀ j, st.length ≤ j → st.line j = 0

/-- The editor-state invariant maintained between events: the cursor is
within the line and the buffer is clean beyond the line. -/
def EditInv (st : RLState) : Prop := st.cursor ≤ st.length ∧ ZerosFrom st

/-- The editor state after typing the single byte l at a fresh prompt:
buffer "l", cursor and length 1 (the completion scenario state). -/
def st_l : RLState :=
  { line := upd_fn (fun _ => 0) 0 108, cursor := 1, length := 1
    insertActive := false, hist := hist_init }

/- ---------------------------------------------------------------------
Claim theorems.
--------------------------------------------------------------------- -/

/-- C1: the claim demands that the termios saved on entry be written back
exactly once on every exit path, including Ctrl-C.  The code violates
this: pressing Ctrl-C (byte 0x03) makes readline return NULL immediately
with no `tcsetattr` after the entry write that put the terminal into raw
mode — the tcsetattr log of the session holds only the raw-mode write,
and the terminal is left raw.  For contrast, the Enter path does perform
the single restoring write the claim demands. -/
theorem c1_ctrl_c_skips_terminal_restore :
    (readline env0 tios0 hist_init [3]).result = none ∧
    (readline env0 tios0 hist_init [3]).tcLog = [⟨false, false, false, 0⟩] ∧
    (readline env0 tios0 hist_init [10]).tcLog =
      [⟨false, false, false, 0⟩, ⟨true, true, true, 0⟩] := by
  refine ⟨by decide, by decide, by decide⟩

/-- C3: the claim says inserting a printable byte at any `cur < len <
CAP-1` shifts `B[cur..len)` right.  The code's shift guard is
`cursor_index < length - 1`, so at `cur = len - 1` nothing is shifted and
the byte under the cursor is overwritten.  First conjunct: the claim's
own scenario (two cursor-lefts) works, bytes abc, left, left, X, Enter
return aXbc.  Second conjunct (the failing input): bytes abc, one left,
X, Enter return abX — the final c is destroyed instead of shifted. -/
theorem c3_insert_at_len_minus_one_overwrites :
    (readline env0 tios0 hist_init
      [97, 98, 99, 27, 91, 68, 27, 91, 68, 88, 10]).result =
        some [97, 88, 98, 99] ∧
    (readline env0 tios0 hist_init
      [97, 98, 99, 27, 91, 68, 88, 10]).result = some [97, 98, 88] := by
  refine ⟨by decide, by decide⟩

/-- C4 (counterexample): the claim says Ctrl-D on an empty buffer returns
an end-of-input result distinguishable from a successful empty line.  In
the code both Ctrl-D on an empty buffer and Enter on an empty line return
the same freshly allocated empty string — the results of the two sessions
are identical, so no caller can distinguish them. -/
theorem c4_eof_indistinguishable_from_empty_enter :
    (readline env0 tios0 hist_init [4]).result =
      (readline env0 tios0 hist_init [10]).result ∧
    (readline env0 tios0 hist_init [4]).result = some [] := by
  refine ⟨by decide, by decide⟩

/-- C4 (amended): when Ctrl-D (0x04) is read the session terminates at
once, leaving the editor state untouched; the session then returns the
current buffer contents — for a non-empty buffer the typed line, for an
empty buffer the empty string, which is the same result as Enter on an
empty line (end-of-input is not separately signalled; only Ctrl-C yields
the distinguishable NULL). -/
theorem c4_ctrl_d_returns_buffer (env : RLEnv) (st : RLState)
    (rest : List Nat) :
    rl_iter env st 4 rest = ⟨st, rest, some RLExit.eof⟩ ∧
    (readline env0 tios0 hist_init [104, 105, 4]).result = some [104, 105] ∧
    (readline env0 tios0 hist_init [4]).result = some [] := by
  refine ⟨rfl, by decide, by decide⟩

/-- C5 (counterexample): the claim says the returned string is the buffer
contents with leading and trailing whitespace trimmed.  Typing space, a,
space, Enter returns the untrimmed three-byte string, which differs from
its trimmed form — `readline` performs no trimming. -/
theorem c5_returned_string_not_trimmed :
    (readline env0 tios0 hist_init [32, 97, 32, 10]).result =
      some [32, 97, 32] ∧
    trim_ws [32, 97, 32] ≠ [32, 97, 32] := by
  refine ⟨by decide, by decide⟩

/-- C5 (amended): for every session that terminates successfully the
returned string is the buffer's C string verbatim (no whitespace
trimming), produced as a fresh `strdup` copy; the Enter byte that ends
the session never modifies the buffer, so the terminating newline is not
part of the result. -/
theorem c5_returns_buffer_verbatim (env : RLEnv) (t : Termios) (h0 : HState)
    (input : List Nat) (s : Str)
    (hres : (readline env t h0 input).result = some s) :
    s = cstring64 (readline env t h0 input).final.line ∧
    ∀ st rest, rl_iter env st 10 rest = ⟨st, rest, some RLExit.enter⟩ := by
  refine ⟨?_, fun st rest => rfl⟩
  simp only [readline] at hres ⊢
  cases hx : (rl_run env input.length (rl_init_state h0) input).exit <;>
    simp_all

/-- C5 witness: a concrete successful session (byte a then Enter) whose
result is the verbatim buffer C string. -/
theorem c5_returns_buffer_verbatim_witness :
    (readline env0 tios0 hist_init [97, 10]).result = some [97] ∧
    ([97] = cstring64 (readline env0 tios0 hist_init [97, 10]).final.line ∧
      ∀ st rest, rl_iter env0 st 10 rest = ⟨st, rest, some RLExit.enter⟩) :=
  ⟨by decide,
    c5_returns_buffer_verbatim env0 tios0 hist_init [97, 10] [97] (by decide)⟩

/-- C9: the claim says that whenever readpasswd returns NULL the caller's
buffer has been zeroed and holds no typed bytes.  The code only zeroes
the buffer on entry: typing a, b and then Ctrl-C (the `ESC ^ C` sequence
the reader recognises) makes readpasswd return NULL while the two typed
bytes are still in the buffer. -/
theorem c9_ctrl_c_leaves_secret_bytes :
    (readpasswd 8 0 (fun _ => 0) [97, 98, 27, 94, 67]).success = false ∧
    (readpasswd 8 0 (fun _ => 0) [97, 98, 27, 94, 67]).buf 0 = 97 ∧
    (readpasswd 8 0 (fun _ => 0) [97, 98, 27, 94, 67]).buf 1 = 98 := by
  refine ⟨by decide, by decide, by decide⟩

/-- Helper: peeking immediately after a push returns the just-pushed
(truncated) entry, whatever the tail position. -/
theorem rb_peek_push (h : HState) (x : Str)
    (hlen : h.bufs.length = HISTORY_MAX) (hcnt : h.count ≤ HISTORY_MAX) :
    rb_history_peek_back (rb_history_push_back h x) = some (x.take LINE_LEN) := by
  have h10 : HISTORY_MAX = 10 := rfl
  by_cases hc : h.count < HISTORY_MAX
  · have hidx : (h.tail + (h.count + 1) - 1) % HISTORY_MAX
        = (h.tail + h.count) % HISTORY_MAX := by rw [h10]; omega
    have hmod : (h.tail + h.count) % HISTORY_MAX < HISTORY_MAX := by
      rw [h10]; omega
    simp only [rb_history_push_back, rb_history_peek_back, hc, if_true]
    rw [if_neg (by omega : ¬ (h.count + 1 = 0))]
    rw [hidx]
    rw [List.getD_eq_getElem?_getD,
      List.getElem?_set_self (by rw [hlen]; exact hmod)]
    rfl
  · have hceq : h.count = HISTORY_MAX := by omega
    have hcne : ¬ h.count = 0 := by rw [hceq, h10]; omega
    have hidx : ((h.tail + 1) % HISTORY_MAX + h.count - 1) % HISTORY_MAX
        = h.tail % HISTORY_MAX := by
      rw [hceq, h10]
      omega
    have hmod : h.tail % HISTORY_MAX < HISTORY_MAX := by rw [h10]; omega
    simp only [rb_history_push_back, rb_history_peek_back, hc, if_false]
    rw [if_neg hcne]
    rw [hidx]
    rw [List.getD_eq_getElem?_getD,
      List.getElem?_set_self (by rw [hlen]; exact hmod)]
    rfl

/-- C6: on an enabled history in any well-formed state, pushing the same
line twice in immediate succession leaves the history in exactly the
state a single push produces: the second push finds the line equal to the
newest entry and is a verbatim no-op (dedup). -/
theorem c6_history_push_idempotent (h : HState) (x : Str)
    (hlen : h.bufs.length = HISTORY_MAX) (hcnt : h.count ≤ HISTORY_MAX)
    (hx : x.length ≤ LINE_LEN) :
    history_push true (history_push true h x) x = history_push true h x := by
  have htake : x.take LINE_LEN = x := List.take_of_length_le hx
  have hpush : rb_history_peek_back (rb_history_push_back h x) = some x := by
    rw [rb_peek_push h x hlen hcnt, htake]
  cases hpk : rb_history_peek_back h with
  | some prev =>
    by_cases hprev : prev = x
    · have h1 : history_push true h x = h := by
        simp [history_push, hpk, hprev]
      rw [h1, h1]
    · have h1 : history_push true h x =
          { rb_history_push_back h x with
            cursor := (rb_history_push_back h x).count } := by
        simp [history_push, hpk, hprev]
      rw [h1]
      have hpk2 : rb_history_peek_back
          ({ rb_history_push_back h x with
            cursor := (rb_history_push_back h x).count }) = some x := hpush
      simp [history_push, hpk2]
  | none =>
    have h1 : history_push true h x =
        { rb_history_push_back h x with
          cursor := (rb_history_push_back h x).count } := by
      simp [history_push, hpk]
    rw [h1]
    have hpk2 : rb_history_peek_back
        ({ rb_history_push_back h x with
          cursor := (rb_history_push_back h x).count }) = some x := hpush
    simp [history_push, hpk2]

/-- C6 witness: pushing the two-byte line hi twice onto the empty enabled
history equals pushing it once. -/
theorem c6_history_push_idempotent_witness :
    (hist_init.bufs.length = HISTORY_MAX ∧ hist_init.count ≤ HISTORY_MAX ∧
      ([104, 105] : Str).length ≤ LINE_LEN) ∧
    history_push true (history_push true hist_init [104, 105]) [104, 105] =
      history_push true hist_init [104, 105] :=
  ⟨⟨by decide, by decide, by decide⟩,
    c6_history_push_idempotent hist_init [104, 105] (by decide) (by decide)
      (by decide)⟩

/-- Helper: an UP fetch always moves the read cursor down by one
(saturating at 0, where it stays), provided the cursor is within the
count. -/
theorem history_fetch_up_state (h : HState) (hinv : h.cursor ≤ h.count) :
    (history_fetch h 65).2 = { h with cursor := h.cursor - 1 } := by
  obtain ⟨b, c, t, u⟩ := h
  simp only at hinv
  by_cases hc : c = 0
  · subst hc
    have hu : u = 0 := by omega
    subst hu
    simp [history_fetch]
  · by_cases hu : 0 < u
    · simp [history_fetch, hc, hu]
    · have hu0 : u = 0 := by omega
      subst hu0
      simp [history_fetch, hc]

/-- Helper: a DOWN fetch below the count moves the read cursor up by
one. -/
theorem history_fetch_down_state (h : HState) (hlt : h.cursor < h.count) :
    (history_fetch h 66).2 = { h with cursor := h.cursor + 1 } := by
  obtain ⟨b, c, t, u⟩ := h
  simp only at hlt
  have hc : ¬ c = 0 := by omega
  by_cases hend : u + 1 = c
  · simp [history_fetch, hc, hlt, hend]
  · simp [history_fetch, hc, hlt, hend]

/-- Helper: the DOWN fetch that lands exactly on the count returns
nothing, signalling the fresh line. -/
theorem history_fetch_down_none (h : HState) (hend : h.cursor + 1 = h.count) :
    (history_fetch h 66).1 = none := by
  obtain ⟨b, c, t, u⟩ := h
  simp only at hend
  have hc : ¬ c = 0 := by omega
  have hlt : u < c := by omega
  simp [history_fetch, hc, hlt, hend]

/-- Helper: n UP fetches subtract n from the read cursor (saturating),
leaving everything else unchanged. -/
theorem fetch_iter_up_eq (n : Nat) : ∀ h : HState, h.cursor ≤ h.count →
    fetch_iter 65 n h = { h with cursor := h.cursor - n } := by
  induction n with
  | zero =>
    intro h _
    obtain ⟨b, c, t, u⟩ := h
    simp [fetch_iter]
  | succ n ih =>
    intro h hinv
    have hstep := history_fetch_up_state h hinv
    rw [fetch_iter, hstep, ih _ (by simp; omega)]
    obtain ⟨b, c, t, u⟩ := h
    simp only
    congr 1
    omega

/-- Helper: k DOWN fetches add k to the read cursor while it stays within
the count. -/
theorem fetch_iter_down_eq (k : Nat) : ∀ h : HState, h.cursor + k ≤ h.count →
    fetch_iter 66 k h = { h with cursor := h.cursor + k } := by
  induction k with
  | zero =>
    intro h _
    obtain ⟨b, c, t, u⟩ := h
    simp [fetch_iter]
  | succ k ih =>
    intro h hk
    have hstep := history_fetch_down_state h (by omega)
    rw [fetch_iter, hstep, ih _ (by simp; omega)]
    obtain ⟨b, c, t, u⟩ := h
    simp only
    congr 1
    omega

/-- C7: starting from the fresh position (`read_cursor = count`), n UP
fetches followed by n DOWN fetches bring the read cursor back to `count`,
and for n ≥ 1 the final DOWN fetch returns nothing — the signal for the
empty fresh line. -/
theorem c7_up_then_down_returns_to_fresh (h : HState) (n : Nat)
    (hfresh : h.cursor = h.count) (hn : n ≤ h.count) :
    (fetch_iter 66 n (fetch_iter 65 n h)).cursor = h.count ∧
    (1 ≤ n →
      (history_fetch (fetch_iter 66 (n - 1) (fetch_iter 65 n h)) 66).1
        = none) := by
  have hup : fetch_iter 65 n h = { h with cursor := h.count - n } := by
    rw [fetch_iter_up_eq n h (by omega), hfresh]
  constructor
  · rw [hup, fetch_iter_down_eq n _ (by simp; omega)]
    simp
    omega
  · intro h1
    rw [hup, fetch_iter_down_eq (n - 1) _ (by simp; omega)]
    apply history_fetch_down_none
    simp
    omega

/-- C7 witness: with a single-entry history at the fresh position, one UP
followed by one DOWN restores the fresh cursor and that DOWN returns
nothing. -/
theorem c7_up_then_down_returns_to_fresh_witness :
    ((HState.mk [[97], [], [], [], [], [], [], [], [], []] 1 0 1).cursor
        = (HState.mk [[97], [], [], [], [], [], [], [], [], []] 1 0 1).count ∧
      1 ≤ (HState.mk [[97], [], [], [], [], [], [], [], [], []] 1 0 1).count) ∧
    ((fetch_iter 66 1 (fetch_iter 65 1
        (HState.mk [[97], [], [], [], [], [], [], [], [], []] 1 0 1))).cursor
      = (HState.mk [[97], [], [], [], [], [], [], [], [], []] 1 0 1).count ∧
      (1 ≤ 1 →
        (history_fetch (fetch_iter 66 (1 - 1) (fetch_iter 65 1
          (HState.mk [[97], [], [], [], [], [], [], [], [], []] 1 0 1))) 66).1
          = none)) :=
  ⟨⟨by decide, by decide⟩,
    c7_up_then_down_returns_to_fresh
      (HState.mk [[97], [], [], [], [], [], [], [], [], []] 1 0 1) 1
      (by decide) (by decide)⟩

/-- C10: on a non-empty history with the read cursor already at 0, an UP
fetch does not fail: it returns the oldest entry (the one at `tail`) and
leaves the state unchanged, so every further UP press returns that same
oldest entry. -/
theorem c10_up_at_zero_yields_oldest (h : HState)
    (hcnt : 0 < h.count) (hcur : h.cursor = 0)
    (htail : h.tail < HISTORY_MAX) :
    (history_fetch h 65).1 = some (h.bufs.getD h.tail []) ∧
    (history_fetch h 65).2 = h ∧
    ∀ k, (history_fetch (fetch_iter 65 k h) 65).1
      = some (h.bufs.getD h.tail []) := by
  have hstate : (history_fetch h 65).2 = h := by
    rw [history_fetch_up_state h (by omega)]
    obtain ⟨b, c, t, u⟩ := h
    simp only at hcur
    subst hcur
    rfl
  have hfst : (history_fetch h 65).1 = some (h.bufs.getD h.tail []) := by
    obtain ⟨b, c, t, u⟩ := h
    simp only at hcur htail hcnt
    subst hcur
    have hc : ¬ c = 0 := by omega
    simp [history_fetch, hc, Nat.mod_eq_of_lt htail]
  have hiter : ∀ k, fetch_iter 65 k h = h := by
    intro k
    induction k with
    | zero => rfl
    | succ k ih => rw [fetch_iter, hstate, ih]
  exact ⟨hfst, hstate, fun k => by rw [hiter k, hfst]⟩

/-- C10 witness: a one-entry history with the cursor at 0; UP returns the
tail entry and leaves the state fixed. -/
theorem c10_up_at_zero_yields_oldest_witness :
    (0 < (HState.mk [[97], [], [], [], [], [], [], [], [], []] 1 0 0).count ∧
      (HState.mk [[97], [], [], [], [], [], [], [], [], []] 1 0 0).cursor = 0 ∧
      (HState.mk [[97], [], [], [], [], [], [], [], [], []] 1 0 0).tail
        < HISTORY_MAX) ∧
    ((history_fetch
        (HState.mk [[97], [], [], [], [], [], [], [], [], []] 1 0 0) 65).1
      = some ((HState.mk
          [[97], [], [], [], [], [], [], [], [], []] 1 0 0).bufs.getD 0 []) ∧
      (history_fetch
        (HState.mk [[97], [], [], [], [], [], [], [], [], []] 1 0 0) 65).2
        = HState.mk [[97], [], [], [], [], [], [], [], [], []] 1 0 0 ∧
      ∀ k, (history_fetch (fetch_iter 65 k
          (HState.mk [[97], [], [], [], [], [], [], [], [], []] 1 0 0)) 65).1
        = some ((HState.mk
            [[97], [], [], [], [], [], [], [], [], []] 1 0 0).bufs.getD 0 [])) :=
  ⟨⟨by decide, by decide, by decide⟩,
    c10_up_at_zero_yields_oldest
      (HState.mk [[97], [], [], [], [], [], [], [], [], []] 1 0 0)
      (by decide) (by decide) (by decide)⟩


/-- Helper: the numeric value of LINE_LEN, for arithmetic automation. -/
theorem LINE_LEN_eq : LINE_LEN = 64 := rfl

/-- Helper: in range, `size_sub` is ordinary subtraction. -/
theorem size_sub_small (a b : Nat) (h : b ≤ a) (h2 : a ≤ 4294967295) :
    size_sub a b = a - b := by
  unfold size_sub
  omega

/-- Helper: `size_sub 0 1` wraps to the largest 32-bit value (the value
the buggy shift condition compares against on an empty line). -/
theorem size_sub_zero_one : size_sub 0 1 = 4294967295 := by decide

/-- Helper: `readline_append` never touches the history. -/
theorem readline_append_hist (st : RLState) (c : Nat) :
    (readline_append st c).1.hist = st.hist := by
  simp only [readline_append]
  split
  · rfl
  · split <;> rfl

/-- Helper: `readline_append` preserves the editor invariant. -/
theorem readline_append_inv (st : RLState) (c : Nat) (hinv : EditInv st) :
    EditInv (readline_append st c).1 := by
  obtain ⟨hc, hz⟩ := hinv
  simp only [readline_append, LINE_LEN_eq]
  split
  · exact ⟨hc, hz⟩
  · rename_i h64
    split
    · refine ⟨Nat.succ_le_succ hc, fun j hj => ?_⟩
      simp only at hj
      simp only [upd_fn]
      split
      · rfl
      · rename_i hj63
        split
        · rename_i hjc; omega
        · exact hz j (by omega)
    · refine ⟨Nat.succ_le_succ hc, fun j hj => ?_⟩
      simp only at hj
      simp only [upd_fn]
      split
      · rename_i hjc; omega
      · exact hz j (by omega)

/-- Helper: the suggestion loop never touches the history. -/
theorem suggest_loop_hist (chs : Str) : ∀ st : RLState,
    (suggest_loop st chs).1.hist = st.hist := by
  induction chs with
  | nil => intro st; rfl
  | cons ch chs ih =>
    intro st
    simp only [suggest_loop]
    split
    · split
      · rfl
      · split
        · exact ih _
        · split
          · exact readline_append_hist st ch
          · rw [ih _, readline_append_hist st ch]
    · split
      · exact readline_append_hist st ch
      · rw [ih _, readline_append_hist st ch]

/-- Helper: the suggestion loop preserves the editor invariant; the
in-place cursor advance stays within the line because the byte under the
cursor is nonzero. -/
theorem suggest_loop_inv (chs : Str) : ∀ st : RLState, EditInv st →
    EditInv (suggest_loop st chs).1 := by
  induction chs with
  | nil => intro st h; exact h
  | cons ch chs ih =>
    intro st h
    simp only [suggest_loop]
    split
    · split
      · exact h
      · split
        · refine ih _ ⟨?_, h.2⟩
          rename_i h0 _ _
          by_cases hcl : st.cursor < st.length
          · exact hcl
          · exact absurd (h.2 st.cursor (by omega)) h0
        · split
          · exact readline_append_inv st ch h
          · exact ih _ (readline_append_inv st ch h)
    · split
      · exact readline_append_inv st ch h
      · exact ih _ (readline_append_inv st ch h)

/-- Helper: `readline_suggest` preserves the editor invariant and the
history. -/
theorem readline_suggest_inv (st : RLState) (f : Str) (t o : Nat)
    (hinv : EditInv st) :
    EditInv (readline_suggest st f t o) ∧
    (readline_suggest st f t o).hist = st.hist := by
  simp only [readline_suggest]
  split
  · exact ⟨suggest_loop_inv _ st hinv, suggest_loop_hist _ st⟩
  · split
    · refine ⟨readline_append_inv _ 47 (suggest_loop_inv _ st hinv), ?_⟩
      rw [readline_append_hist, suggest_loop_hist]
    · exact ⟨suggest_loop_inv _ st hinv, suggest_loop_hist _ st⟩

/-- Helper: the completion dispatch preserves the editor invariant and
the history, whatever branch runs. -/
theorem readline_complete_core_inv (env : RLEnv) (w : Nat) (st1 : RLState)
    (hinv : EditInv st1) :
    EditInv (readline_complete_core env w st1) ∧
    (readline_complete_core env w st1).hist = st1.hist := by
  simp only [readline_complete_core]
  repeat' split
  all_goals first
    | exact ⟨hinv, rfl⟩
    | exact readline_suggest_inv st1 _ _ _ hinv

/-- Helper: `readline_complete` preserves the editor invariant and the
history. -/
theorem readline_complete_inv (env : RLEnv) (st : RLState)
    (hinv : EditInv st) :
    EditInv (readline_complete env st) ∧
    (readline_complete env st).hist = st.hist := by
  have hap : EditInv (readline_append st 47).1 ∧
      (readline_append st 47).1.hist = st.hist :=
    ⟨readline_append_inv st 47 hinv, readline_append_hist st 47⟩
  simp only [readline_complete]
  split
  · exact ⟨hinv, rfl⟩
  · split
    · exact ⟨hinv, rfl⟩
    · by_cases hd : (2 ≤ st.cursor ∧ st.line (st.cursor - 1) = 46 ∧
          st.line (st.cursor - 2) = 46)
      · rw [if_pos hd]
        split
        · exact hap
        · have h1 := readline_complete_core_inv env
            (count_words (cstring64 st.line)) (readline_append st 47).1 hap.1
          exact ⟨h1.1, by rw [h1.2, hap.2]⟩
      · rw [if_neg hd]
        split
        · exact ⟨hinv, rfl⟩
        · exact readline_complete_core_inv env
            (count_words (cstring64 st.line)) st hinv

/-- Helper: under the invariant, `readline_clear` resets cursor and
length and zeroes the whole buffer (every index, since bytes at 64 and
beyond were already zero). -/
theorem readline_clear_spec (st : RLState) (hinv : EditInv st)
    (hlen : st.length ≤ LINE_LEN) :
    (readline_clear st).cursor = 0 ∧ (readline_clear st).length = 0 ∧
    (∀ j, (readline_clear st).line j = 0) ∧
    (readline_clear st).hist = st.hist := by
  obtain ⟨hc, hz⟩ := hinv
  simp only [readline_clear, LINE_LEN_eq] at *
  rw [if_neg (by omega)]
  refine ⟨rfl, rfl, fun j => ?_, rfl⟩
  simp only
  split
  · rfl
  · exact hz j (by omega)

/-- Helper: mapping positional `getD` lookup over an index range lays the
list out followed by default padding. -/
theorem range_map_getD (n : Nat) : ∀ s : Str, s.length ≤ n →
    (List.range n).map (fun j => s.getD j 0) =
      s ++ List.replicate (n - s.length) 0 := by
  induction n with
  | zero =>
    intro s hs
    have : s = [] := List.eq_nil_of_length_eq_zero (by omega)
    subst this
    rfl
  | succ n ih =>
    intro s hs
    rw [List.range_succ_eq_map, List.map_cons, List.map_map]
    cases s with
    | nil =>
      have heq : ((List.range n).map ((fun j => ([] : Str).getD j 0) ∘ (· + 1)))
          = (List.range n).map (fun j => ([] : Str).getD j 0) := rfl
      rw [heq, ih [] (by simp)]
      simp [List.replicate_succ]
    | cons a s' =>
      have hcomp : ((List.range n).map ((fun j => (a :: s').getD j 0) ∘ (· + 1)))
          = (List.range n).map (fun j => s'.getD j 0) := by
        apply List.map_congr_left
        intro x _
        simp [List.getD_cons_succ]
      rw [hcomp, ih s' (by simp only [List.length_cons] at hs; omega)]
      simp only [List.getD_cons_zero, List.cons_append, List.length_cons]
      have hgoal : n + 1 - (s'.length + 1) = n - s'.length := by omega
      rw [hgoal]

/-- Helper: takeWhile distributes over an append whose first part
satisfies the predicate throughout. -/
theorem takeWhile_append_all (p : Nat → Bool) (rest : Str) : ∀ s : Str,
    (∀ x ∈ s, p x = true) →
    (s ++ rest).takeWhile p = s ++ rest.takeWhile p := by
  intro s
  induction s with
  | nil => intro _; rfl
  | cons a s' ih =>
    intro hall
    have hpa := hall a (List.mem_cons_self a s')
    simp [List.takeWhile_cons, hpa,
      ih (fun x hx => hall x (List.mem_cons_of_mem a hx))]

/-- Helper: the C string of a buffer freshly strncpy-filled from a stored
entry is the entry's own C string, provided it fits below the buffer
size. -/
theorem cstring64_strncpy (b : Nat → Nat) (e : Str)
    (hlt : (e.takeWhile (fun c => c ≠ 0)).length < LINE_LEN) :
    cstring64 (strncpy64 b e) = e.takeWhile (fun c => c ≠ 0) := by
  have hmap : (List.range LINE_LEN).map (strncpy64 b e)
      = (List.range LINE_LEN).map
          (fun j => (e.takeWhile (fun c => c ≠ 0)).getD j 0) := by
    apply List.map_congr_left
    intro x hx
    have : x < LINE_LEN := List.mem_range.mp hx
    simp only [strncpy64, this, if_pos]
  unfold cstring64
  rw [hmap, range_map_getD LINE_LEN _ (by omega)]
  rw [takeWhile_append_all _ _ _ (fun x hx => by
    have := List.mem_takeWhile_imp hx
    simpa using this)]
  rw [LINE_LEN_eq] at hlt ⊢
  obtain ⟨k, hk⟩ : ∃ k, 64 - (e.takeWhile (fun c => c ≠ 0)).length
      = k + 1 := ⟨64 - (e.takeWhile (fun c => c ≠ 0)).length - 1, by omega⟩
  rw [hk, List.replicate_succ]
  simp [List.takeWhile_cons]

/-- Helper: a history fetch changes only the read cursor. -/
theorem history_fetch_frame (h : HState) (dir : Nat) :
    (history_fetch h dir).2.bufs = h.bufs ∧
    (history_fetch h dir).2.count = h.count ∧
    (history_fetch h dir).2.tail = h.tail := by
  refine ⟨?_, ?_, ?_⟩ <;>
  · simp only [history_fetch]
    repeat' split
    all_goals rfl

/-- Helper: an entry returned by a fetch from a well-formed history fits
the entry buffer. -/
theorem history_fetch_entry_len (h : HState) (dir : Nat) (hw : HistWF h)
    (e : Str) (he : (history_fetch h dir).1 = some e) :
    e.length < LINE_LEN := by
  obtain ⟨hlen, hball⟩ := hw
  have hg : ∀ i, (h.bufs.getD i []).length < LINE_LEN := by
    intro i
    by_cases hi : i < h.bufs.length
    · rw [List.getD_eq_getElem?_getD, List.getElem?_eq_getElem hi]
      exact hball _ (List.getElem_mem hi)
    · rw [List.getD_eq_getElem?_getD, List.getElem?_eq_none (by omega)]
      simp [LINE_LEN_eq]
  simp only [history_fetch] at he
  repeat' split at he
  all_goals first
    | exact Option.noConfusion he
    | (obtain rfl := Option.some.inj he; exact hg _)

/-- Helper: the history-navigation event preserves the editor invariant
and keeps the resulting length below the buffer size; the ring contents
are untouched. -/
theorem rl_histnav_inv (st : RLState) (dir : Nat) (hinv : EditInv st)
    (hlen : st.length ≤ LINE_LEN) (hw : HistWF st.hist) :
    EditInv (rl_histnav st dir) ∧ (rl_histnav st dir).length < LINE_LEN ∧
    (rl_histnav st dir).hist.bufs = st.hist.bufs := by
  obtain ⟨hc0, hl0, hz0, hh0⟩ := readline_clear_spec st hinv hlen
  simp only [rl_histnav]
  cases hf : (history_fetch (readline_clear st).hist dir).1 with
  | some e =>
    simp only [hf]
    have hwclear : HistWF (readline_clear st).hist := by rw [hh0]; exact hw
    have helen : e.length < LINE_LEN :=
      history_fetch_entry_len _ dir hwclear e hf
    have htlen : (e.takeWhile (fun c => c ≠ 0)).length < LINE_LEN := by
      have := (List.takeWhile_sublist (l := e) (fun c => c ≠ 0)).length_le
      omega
    have hcs := cstring64_strncpy (readline_clear st).line e htlen
    refine ⟨⟨Nat.le_refl _, fun j hj => ?_⟩, ?_, ?_⟩
    · simp only [strnlen64, hcs] at hj ⊢
      simp only [strncpy64]
      split
      · exact List.getD_eq_default _ _ (by omega)
      · exact hz0 j
    · simp only [strnlen64, hcs]
      omega
    · show (history_fetch (readline_clear st).hist dir).2.bufs = st.hist.bufs
      rw [(history_fetch_frame _ dir).1, hh0]
  | none =>
    simp only [hf]
    refine ⟨⟨?_, fun j hj => hz0 j⟩, ?_, ?_⟩
    · show (readline_clear st).cursor ≤ (readline_clear st).length
      omega
    · show (readline_clear st).length < LINE_LEN
      rw [hl0, LINE_LEN_eq]
      omega
    · show (history_fetch (readline_clear st).hist dir).2.bufs = st.hist.bufs
      rw [(history_fetch_frame _ dir).1, hh0]

/-- Helper: facts about a non-full append: cursor and length advance by
one and the byte lands at the old cursor. -/
theorem readline_append_not_full (st : RLState) (c : Nat)
    (h : (readline_append st c).2 = false) :
    st.cursor < LINE_LEN ∧
    (readline_append st c).1.cursor = st.cursor + 1 ∧
    (readline_append st c).1.length = st.length + 1 ∧
    (readline_append st c).1.line = upd_fn st.line st.cursor c := by
  by_cases h64 : LINE_LEN ≤ st.cursor
  · exfalso
    simp [readline_append, h64] at h
  · by_cases hfull : st.cursor + 1 = LINE_LEN - 1
    · exfalso
      simp [readline_append, h64, hfull] at h
    · refine ⟨Nat.not_le.mp h64, ?_, ?_, ?_⟩ <;>
        simp [readline_append, h64, hfull]

/-- Helper: BACKSPACE preserves the editor invariant and the history. -/
theorem rl_backspace_inv (st : RLState) (hinv : EditInv st)
    (hlen : st.length ≤ LINE_LEN) :
    EditInv (rl_backspace st) ∧ (rl_backspace st).hist = st.hist := by
  obtain ⟨hc, hz⟩ := hinv
  rw [LINE_LEN_eq] at hlen
  simp only [rl_backspace]
  split
  · rename_i hcur
    have h1 : 1 ≤ st.length := by omega
    have hs1 : size_sub st.length 1 = st.length - 1 :=
      size_sub_small _ _ h1 (by omega)
    refine ⟨⟨?_, ?_⟩, rfl⟩
    · show st.cursor - 1 ≤ size_sub st.length 1
      rw [hs1]
      omega
    · intro j hj
      replace hj : size_sub st.length 1 ≤ j := hj
      rw [hs1] at hj
      show memmove_fn st.line (st.cursor - 1) (st.cursor - 1 + 1)
        (size_sub (size_sub st.length 1) (st.cursor - 1) + 1) j = 0
      simp only [memmove_fn]
      split
      · apply hz
        rename_i hreg
        omega
      · apply hz
        rename_i hreg
        rw [hs1, size_sub_small _ _ (by omega) (by omega)] at hreg
        omega
  · exact ⟨⟨hc, hz⟩, rfl⟩

/-- Helper: DELETE preserves the editor invariant and the history. -/
theorem rl_delete_inv (st : RLState) (hinv : EditInv st)
    (hlen : st.length ≤ LINE_LEN) :
    EditInv (rl_delete st) ∧ (rl_delete st).hist = st.hist := by
  obtain ⟨hc, hz⟩ := hinv
  rw [LINE_LEN_eq] at hlen
  simp only [rl_delete]
  split
  · rename_i hcur
    refine ⟨⟨?_, ?_⟩, rfl⟩
    · show st.cursor ≤ st.length - 1
      omega
    intro j hj
    replace hj : st.length - 1 ≤ j := hj
    show memmove_fn st.line st.cursor (st.cursor + 1)
      (size_sub (st.length - 1) st.cursor + 1) j = 0
    simp only [memmove_fn]
    split
    · apply hz
      rename_i hreg
      omega
    · apply hz
      rename_i hreg
      rw [size_sub_small _ _ (by omega) (by omega)] at hreg
      omega
  · exact ⟨⟨hc, hz⟩, rfl⟩

/-- Helper: the bounded cursor moves and the insert toggle preserve the
editor invariant and the history. -/
theorem rl_left_inv (st : RLState) (hinv : EditInv st) :
    EditInv (rl_left st) ∧ (rl_left st).hist = st.hist := by
  obtain ⟨hc, hz⟩ := hinv
  simp only [rl_left]
  split
  · refine ⟨⟨?_, fun j hj => hz j hj⟩, rfl⟩
    show st.cursor - 1 ≤ st.length
    omega
  · exact ⟨⟨hc, hz⟩, rfl⟩

/-- Helper: RIGHT ARROW preserves the editor invariant and the history. -/
theorem rl_right_inv (st : RLState) (hinv : EditInv st) :
    EditInv (rl_right st) ∧ (rl_right st).hist = st.hist := by
  obtain ⟨hc, hz⟩ := hinv
  simp only [rl_right]
  split
  · rename_i hlt
    refine ⟨⟨?_, fun j hj => hz j hj⟩, rfl⟩
    show st.cursor + 1 ≤ st.length
    omega
  · exact ⟨⟨hc, hz⟩, rfl⟩

/-- Helper: HOME preserves the editor invariant and the history. -/
theorem rl_home_inv (st : RLState) (hinv : EditInv st) :
    EditInv (rl_home st) ∧ (rl_home st).hist = st.hist :=
  ⟨⟨Nat.zero_le _, fun j hj => hinv.2 j hj⟩, rfl⟩

/-- Helper: END preserves the editor invariant and the history. -/
theorem rl_end_inv (st : RLState) (hinv : EditInv st) :
    EditInv (rl_end st) ∧ (rl_end st).hist = st.hist :=
  ⟨⟨Nat.le_refl _, fun j hj => hinv.2 j hj⟩, rfl⟩

/-- Helper: the rightward skip loop never leaves the line. -/
theorem skip_right_fuel_le (f : Nat) :
    ∀ (line : Nat → Nat) (len cur : Nat) (p : Nat → Bool), cur ≤ len →
    skip_right_fuel f line len cur p ≤ len := by
  induction f with
  | zero => intro line len cur p h; exact h
  | succ f ih =>
    intro line len cur p h
    simp only [skip_right_fuel]
    split
    · rename_i hcond
      exact ih _ _ _ _ (by omega)
    · exact h

/-- Helper: the leftward skip loop never moves the cursor right. -/
theorem skip_left_le (line : Nat → Nat) (p : Nat → Bool) : ∀ cur : Nat,
    skip_left line p cur ≤ cur := by
  intro cur
  induction cur with
  | zero => exact Nat.le_refl 0
  | succ k ih =>
    simp only [skip_left]
    split
    · exact Nat.le_trans ih (Nat.le_succ k)
    · exact Nat.le_refl _

/-- Helper: CTRL+RIGHT keeps the cursor within the line. -/
theorem word_right_le (st : RLState) (h : st.cursor ≤ st.length) :
    word_right st ≤ st.length := by
  unfold word_right
  exact skip_right_fuel_le _ _ _ _ _ (skip_right_fuel_le _ _ _ _ _ h)

/-- Helper: CTRL+LEFT keeps the cursor within the line. -/
theorem word_left_le (st : RLState) (h : st.cursor ≤ st.length) :
    word_left st ≤ st.length := by
  unfold word_left
  exact Nat.le_trans (skip_left_le _ _ _)
    (Nat.le_trans (skip_left_le _ _ _) h)

/-- Helper: the printable-byte event preserves the editor invariant
whenever it does not end the session with a full buffer, and never
touches the history. -/
theorem rl_printable_inv (st : RLState) (c : Nat) (hinv : EditInv st)
    (hlen : st.length ≤ LINE_LEN) :
    ((rl_printable st c).2 = false → EditInv (rl_printable st c).1) ∧
    (rl_printable st c).1.hist = st.hist := by
  obtain ⟨hc, hz⟩ := hinv
  simp only [rl_printable]
  by_cases hins : st.insertActive = true
  · rw [if_pos hins]
    split
    · exact ⟨fun hff => absurd hff (by simp), readline_append_hist st c⟩
    · rename_i hnf
      have hfacts := readline_append_not_full st c (by simpa using hnf)
      split
      · rename_i hadj
        refine ⟨fun _ => ⟨?_, ?_⟩, readline_append_hist st c⟩
        · show (readline_append st c).1.cursor ≤ (readline_append st c).1.length - 1
          rw [hfacts.2.1, hfacts.2.2.1]
          rw [hfacts.2.1, hfacts.2.2.1] at hadj
          omega
        · intro j hj
          replace hj : (readline_append st c).1.length - 1 ≤ j := hj
          rw [hfacts.2.2.1] at hj
          rw [hfacts.2.1, hfacts.2.2.1] at hadj
          show (readline_append st c).1.line j = 0
          rw [hfacts.2.2.2]
          simp only [upd_fn]
          split
          · rename_i hjc
            omega
          · exact hz j (by omega)
      · exact ⟨fun _ => readline_append_inv st c ⟨hc, hz⟩,
          readline_append_hist st c⟩
  · rw [if_neg hins]
    by_cases hshift : st.cursor < size_sub st.length 1
    · rw [if_pos hshift]
      split
      · refine ⟨fun hff => absurd hff (by simp), ?_⟩
        rw [readline_append_hist]
      · rename_i hnf
        have hfacts := readline_append_not_full _ c (by simpa using hnf)
        rw [if_neg (by simp [hins])]
        refine ⟨fun _ => ⟨?_, ?_⟩, by rw [readline_append_hist]⟩
        · show (readline_append _ c).1.cursor ≤ (readline_append _ c).1.length
          rw [hfacts.2.1, hfacts.2.2.1]
          exact Nat.succ_le_succ hc
        · intro j hj
          replace hj : (readline_append _ c).1.length ≤ j := hj
          rw [hfacts.2.2.1] at hj
          replace hj : st.length + 1 ≤ j := hj
          show (readline_append _ c).1.line j = 0
          rw [hfacts.2.2.2]
          simp only [upd_fn]
          split
          · rename_i hjc
            replace hjc : j = st.cursor := hjc
            omega
          · show memmove_fn st.line (st.cursor + 1) st.cursor
              (size_sub st.length st.cursor + 1) j = 0
            simp only [memmove_fn]
            split
            · rename_i hreg
              apply hz
              omega
            · apply hz
              omega
    · rw [if_neg hshift]
      split
      · exact ⟨fun hff => absurd hff (by simp), readline_append_hist st c⟩
      · rw [if_neg (by simp [hins])]
        exact ⟨fun _ => readline_append_inv st c ⟨hc, hz⟩,
          readline_append_hist st c⟩

/-- Helper: `readline_clear` preserves the editor invariant and the
history. -/
theorem readline_clear_inv (st : RLState) (hinv : EditInv st)
    (hlen : st.length ≤ LINE_LEN) :
    EditInv (readline_clear st) ∧ (readline_clear st).hist = st.hist := by
  obtain ⟨h1, h2, h3, h4⟩ := readline_clear_spec st hinv hlen
  exact ⟨⟨by rw [h1, h2], fun j hj => h3 j⟩, h4⟩

/-- Helper: history well-formedness only depends on the stored entries,
so it transfers along equal ring contents. -/
theorem histwf_of_bufs_eq (h1 h2 : HState) (hb : h1.bufs = h2.bufs)
    (hw : HistWF h2) : HistWF h1 := by
  constructor
  · rw [hb]
    exact hw.1
  · intro e he
    rw [hb] at he
    exact hw.2 e he

/-- Helper: the CSI dispatch preserves the editor invariant and history
well-formedness when it continues, and leaves the state untouched when it
reports out-of-input. -/
theorem rl_iter_csi_inv (env : RLEnv) (st : RLState) (c3 : Nat)
    (rest3 : List Nat) (hinv : EditInv st) (hlen : st.length < LINE_LEN)
    (hw : HistWF st.hist) :
    ((rl_iter_csi env st c3 rest3).exit = none →
      EditInv (rl_iter_csi env st c3 rest3).st ∧
        HistWF (rl_iter_csi env st c3 rest3).st.hist) ∧
    (∀ k, (rl_iter_csi env st c3 rest3).exit = some k → k ≠ RLExit.full →
      (rl_iter_csi env st c3 rest3).st = st) := by
  have hle : st.length ≤ LINE_LEN := Nat.le_of_lt hlen
  suffices hall : ∀ o : IterOut, rl_iter_csi env st c3 rest3 = o →
      (o.exit = none → EditInv o.st ∧ HistWF o.st.hist) ∧
      (∀ k, o.exit = some k → k ≠ RLExit.full → o.st = st) by
    exact hall _ rfl
  intro o ho
  simp only [rl_iter_csi] at ho
  by_cases h1 : c3 = 65 ∨ c3 = 66
  · rw [if_pos h1] at ho
    subst ho
    exact ⟨fun _ => ⟨(rl_histnav_inv st _ hinv hle hw).1,
        histwf_of_bufs_eq _ _ (rl_histnav_inv st _ hinv hle hw).2.2 hw⟩,
      fun k hk hnf => Option.noConfusion hk⟩
  rw [if_neg h1] at ho
  by_cases h2 : c3 = 68
  · rw [if_pos h2] at ho
    subst ho
    exact ⟨fun _ => ⟨(rl_left_inv st hinv).1,
        histwf_of_bufs_eq _ _
          (congrArg HState.bufs (rl_left_inv st hinv).2) hw⟩,
      fun k hk hnf => Option.noConfusion hk⟩
  rw [if_neg h2] at ho
  by_cases h3 : c3 = 67
  · rw [if_pos h3] at ho
    subst ho
    exact ⟨fun _ => ⟨(rl_right_inv st hinv).1,
        histwf_of_bufs_eq _ _
          (congrArg HState.bufs (rl_right_inv st hinv).2) hw⟩,
      fun k hk hnf => Option.noConfusion hk⟩
  rw [if_neg h3] at ho
  by_cases h4 : c3 = 72
  · rw [if_pos h4] at ho
    subst ho
    exact ⟨fun _ => ⟨(rl_home_inv st hinv).1,
        histwf_of_bufs_eq _ _
          (congrArg HState.bufs (rl_home_inv st hinv).2) hw⟩,
      fun k hk hnf => Option.noConfusion hk⟩
  rw [if_neg h4] at ho
  by_cases h5 : c3 = 70
  · rw [if_pos h5] at ho
    subst ho
    exact ⟨fun _ => ⟨(rl_end_inv st hinv).1,
        histwf_of_bufs_eq _ _
          (congrArg HState.bufs (rl_end_inv st hinv).2) hw⟩,
      fun k hk hnf => Option.noConfusion hk⟩
  rw [if_neg h5] at ho
  by_cases h6 : c3 = 50
  · rw [if_pos h6] at ho
    cases rest3 with
    | nil =>
      subst ho
      exact ⟨fun h => Option.noConfusion h, fun k hk hnf => rfl⟩
    | cons c4 rest4 =>
      by_cases h7 : c4 = 126
      · simp only [if_pos h7] at ho
        subst ho
        exact ⟨fun _ => ⟨⟨hinv.1, fun j hj => hinv.2 j hj⟩,
            histwf_of_bufs_eq _ _ rfl hw⟩,
          fun k hk hnf => Option.noConfusion hk⟩
      · simp only [if_neg h7] at ho
        subst ho
        exact ⟨fun _ => ⟨hinv, hw⟩, fun k hk hnf => Option.noConfusion hk⟩
  rw [if_neg h6] at ho
  by_cases h8 : c3 = 51
  · rw [if_pos h8] at ho
    cases rest3 with
    | nil =>
      subst ho
      exact ⟨fun h => Option.noConfusion h, fun k hk hnf => rfl⟩
    | cons c4 rest4 =>
      by_cases h7 : c4 = 126
      · simp only [if_pos h7] at ho
        subst ho
        exact ⟨fun _ => ⟨(rl_delete_inv st hinv hle).1,
            histwf_of_bufs_eq _ _
              (congrArg HState.bufs (rl_delete_inv st hinv hle).2) hw⟩,
          fun k hk hnf => Option.noConfusion hk⟩
      · simp only [if_neg h7] at ho
        subst ho
        exact ⟨fun _ => ⟨hinv, hw⟩, fun k hk hnf => Option.noConfusion hk⟩
  rw [if_neg h8] at ho
  by_cases h9 : c3 = 53 ∨ c3 = 54
  · rw [if_pos h9] at ho
    cases rest3 with
    | nil =>
      subst ho
      exact ⟨fun h => Option.noConfusion h, fun k hk hnf => rfl⟩
    | cons c4 rest4 =>
      subst ho
      exact ⟨fun _ => ⟨hinv, hw⟩, fun k hk hnf => Option.noConfusion hk⟩
  rw [if_neg h9] at ho
  by_cases h10 : c3 = 49
  · rw [if_pos h10] at ho
    cases rest3 with
    | nil =>
      subst ho
      exact ⟨fun h => Option.noConfusion h, fun k hk hnf => rfl⟩
    | cons c4 rest4 =>
      by_cases h11 : c4 = 59
      · simp only [if_pos h11] at ho
        cases rest4 with
        | nil =>
          subst ho
          exact ⟨fun h => Option.noConfusion h, fun k hk hnf => rfl⟩
        | cons c5 rest5 =>
          by_cases h12 : c5 = 53
          · simp only [if_pos h12] at ho
            cases rest5 with
            | nil =>
              subst ho
              exact ⟨fun h => Option.noConfusion h, fun k hk hnf => rfl⟩
            | cons c6 rest6 =>
              by_cases h13 : c6 = 67
              · simp only [if_pos h13] at ho
                subst ho
                exact ⟨fun _ => ⟨⟨word_right_le st hinv.1,
                    fun j hj => hinv.2 j hj⟩,
                    histwf_of_bufs_eq _ _ rfl hw⟩,
                  fun k hk hnf => Option.noConfusion hk⟩
              · simp only [if_neg h13] at ho
                by_cases h14 : c6 = 68
                · simp only [if_pos h14] at ho
                  subst ho
                  exact ⟨fun _ => ⟨⟨word_left_le st hinv.1,
                      fun j hj => hinv.2 j hj⟩,
                      histwf_of_bufs_eq _ _ rfl hw⟩,
                    fun k hk hnf => Option.noConfusion hk⟩
                · simp only [if_neg h14] at ho
                  subst ho
                  exact ⟨fun _ => ⟨hinv, hw⟩,
                    fun k hk hnf => Option.noConfusion hk⟩
          · simp only [if_neg h12] at ho
            subst ho
            exact ⟨fun _ => ⟨hinv, hw⟩, fun k hk hnf => Option.noConfusion hk⟩
      · simp only [if_neg h11] at ho
        subst ho
        exact ⟨fun _ => ⟨hinv, hw⟩, fun k hk hnf => Option.noConfusion hk⟩
  · rw [if_neg h10] at ho
    subst ho
    exact ⟨fun _ => ⟨hinv, hw⟩, fun k hk hnf => Option.noConfusion hk⟩

/-- Helper: the escape branch preserves the editor invariant and history
well-formedness when it continues, and leaves the state untouched when it
ends the session. -/
theorem rl_iter_esc_inv (env : RLEnv) (st : RLState) (rest : List Nat)
    (hinv : EditInv st) (hlen : st.length < LINE_LEN) (hw : HistWF st.hist) :
    ((rl_iter_esc env st rest).exit = none →
      EditInv (rl_iter_esc env st rest).st ∧
        HistWF (rl_iter_esc env st rest).st.hist) ∧
    (∀ k, (rl_iter_esc env st rest).exit = some k → k ≠ RLExit.full →
      (rl_iter_esc env st rest).st = st) := by
  suffices hall : ∀ o : IterOut, rl_iter_esc env st rest = o →
      (o.exit = none → EditInv o.st ∧ HistWF o.st.hist) ∧
      (∀ k, o.exit = some k → k ≠ RLExit.full → o.st = st) by
    exact hall _ rfl
  intro o ho
  cases rest with
  | nil =>
    simp only [rl_iter_esc] at ho
    subst ho
    exact ⟨fun h => Option.noConfusion h, fun k hk hnf => rfl⟩
  | cons c2 rest2 =>
    simp only [rl_iter_esc] at ho
    by_cases h1 : c2 = 91
    · rw [if_pos h1] at ho
      cases rest2 with
      | nil =>
        subst ho
        exact ⟨fun h => Option.noConfusion h, fun k hk hnf => rfl⟩
      | cons c3 rest3 =>
        rw [← ho]
        exact rl_iter_csi_inv env st c3 rest3 hinv hlen hw
    · rw [if_neg h1] at ho
      subst ho
      exact ⟨fun _ => ⟨hinv, hw⟩, fun k hk hnf => Option.noConfusion hk⟩

/-- Helper: one readline loop iteration preserves the editor invariant
and history well-formedness when it continues, and leaves the state
untouched when it ends the session other than by a full buffer. -/
theorem rl_iter_inv (env : RLEnv) (st : RLState) (c : Nat) (rest : List Nat)
    (hinv : EditInv st) (hlen : st.length < LINE_LEN) (hw : HistWF st.hist) :
    ((rl_iter env st c rest).exit = none →
      EditInv (rl_iter env st c rest).st ∧
        HistWF (rl_iter env st c rest).st.hist) ∧
    (∀ k, (rl_iter env st c rest).exit = some k → k ≠ RLExit.full →
      (rl_iter env st c rest).st = st) := by
  have hle : st.length ≤ LINE_LEN := Nat.le_of_lt hlen
  suffices hall : ∀ o : IterOut, rl_iter env st c rest = o →
      (o.exit = none → EditInv o.st ∧ HistWF o.st.hist) ∧
      (∀ k, o.exit = some k → k ≠ RLExit.full → o.st = st) by
    exact hall _ rfl
  intro o ho
  simp only [rl_iter] at ho
  by_cases h1 : c = 4
  · rw [if_pos h1] at ho
    subst ho
    exact ⟨fun h => Option.noConfusion h, fun k hk hnf => rfl⟩
  rw [if_neg h1] at ho
  by_cases h2 : c = 10
  · rw [if_pos h2] at ho
    subst ho
    exact ⟨fun h => Option.noConfusion h, fun k hk hnf => rfl⟩
  rw [if_neg h2] at ho
  by_cases h3 : c = 8
  · rw [if_pos h3] at ho
    subst ho
    exact ⟨fun _ => ⟨(rl_backspace_inv st hinv hle).1,
        histwf_of_bufs_eq _ _
          (congrArg HState.bufs (rl_backspace_inv st hinv hle).2) hw⟩,
      fun k hk hnf => Option.noConfusion hk⟩
  rw [if_neg h3] at ho
  by_cases h4 : c = 9
  · rw [if_pos h4] at ho
    subst ho
    exact ⟨fun _ => ⟨(readline_complete_inv env st hinv).1,
        histwf_of_bufs_eq _ _
          (congrArg HState.bufs (readline_complete_inv env st hinv).2) hw⟩,
      fun k hk hnf => Option.noConfusion hk⟩
  rw [if_neg h4] at ho
  by_cases h5 : c = 3
  · rw [if_pos h5] at ho
    subst ho
    exact ⟨fun h => Option.noConfusion h, fun k hk hnf => rfl⟩
  rw [if_neg h5] at ho
  by_cases h6 : c = 21
  · rw [if_pos h6] at ho
    subst ho
    exact ⟨fun _ => ⟨(readline_clear_inv st hinv hle).1,
        histwf_of_bufs_eq _ _
          (congrArg HState.bufs (readline_clear_inv st hinv hle).2) hw⟩,
      fun k hk hnf => Option.noConfusion hk⟩
  rw [if_neg h6] at ho
  by_cases h7 : c = 27
  · rw [if_pos h7] at ho
    rw [← ho]
    exact rl_iter_esc_inv env st rest hinv hlen hw
  rw [if_neg h7] at ho
  by_cases h8 : (rl_printable st c).2 = true
  · rw [if_pos h8] at ho
    subst ho
    exact ⟨fun h => Option.noConfusion h,
      fun k hk hnf => absurd (Option.some.inj hk).symm hnf⟩
  · rw [if_neg h8] at ho
    subst ho
    exact ⟨fun _ =>
        ⟨(rl_printable_inv st c hinv hle).1 (by simpa using h8),
          histwf_of_bufs_eq _ _
            (congrArg HState.bufs (rl_printable_inv st c hinv hle).2) hw⟩,
      fun k hk hnf => Option.noConfusion hk⟩

/-- Helper: every state in the trace of a loop run that does not end with
a full buffer satisfies the cursor/length invariant, starting from any
invariant state with a well-formed history. -/
theorem rl_run_inv (env : RLEnv) : ∀ (fuel : Nat) (st : RLState)
    (input : List Nat), EditInv st → st.length < LINE_LEN →
    HistWF st.hist → (rl_run env fuel st input).exit ≠ RLExit.full →
    ∀ s ∈ (rl_run env fuel st input).trace,
      s.cursor ≤ s.length ∧ s.length < LINE_LEN := by
  intro fuel
  induction fuel with
  | zero =>
    intro st input hinv hlen hw hnf s hs
    simp [rl_run] at hs
  | succ fuel ih =>
    intro st input hinv hlen hw hnf s hs
    cases input with
    | nil => simp [rl_run] at hs
    | cons c rest =>
      simp only [rl_run] at hs hnf
      cases ho : (rl_iter env st c rest).exit with
      | some k =>
        simp only [ho] at hs hnf
        have hst := (rl_iter_inv env st c rest hinv hlen hw).2 k ho
          (by simpa using hnf)
        simp only [List.mem_singleton] at hs
        subst hs
        rw [hst]
        exact ⟨hinv.1, hlen⟩
      | none =>
        simp only [ho] at hs hnf
        obtain ⟨hinv', hw'⟩ := (rl_iter_inv env st c rest hinv hlen hw).1 ho
        by_cases hlt : (rl_iter env st c rest).st.length < LINE_LEN
        · rw [if_pos hlt] at hs hnf
          simp only [List.mem_cons] at hs
          rcases hs with hs1 | hs2
          · subst hs1
            exact ⟨hinv'.1, hlt⟩
          · exact ih _ _ hinv' hlt hw' hnf s hs2
        · rw [if_neg hlt] at hnf
          exact absurd rfl hnf

/-- C2: readline's editor-state invariant.  For every environment,
initial terminal state, well-formed history and input byte sequence whose
session does not end by buffer overflow, the state after each processed
event satisfies `0 ≤ cur ≤ len < CAP` with `CAP = LINE_LEN = 64` (the
lower bound is inherent in the `Nat` model). -/
theorem c2_cursor_length_invariant (env : RLEnv) (t : Termios) (h0 : HState)
    (input : List Nat) (hw : HistWF h0)
    (hnf : (readline env t h0 input).exit ≠ RLExit.full) :
    ∀ s ∈ (readline env t h0 input).trace,
      s.cursor ≤ s.length ∧ s.length < LINE_LEN := by
  have htr : (readline env t h0 input).trace
      = (rl_run env input.length (rl_init_state h0) input).trace := by
    simp only [readline]
    cases (rl_run env input.length (rl_init_state h0) input).exit <;> rfl
  have hex : (readline env t h0 input).exit
      = (rl_run env input.length (rl_init_state h0) input).exit := by
    simp only [readline]
    cases (rl_run env input.length (rl_init_state h0) input).exit <;> rfl
  rw [htr]
  rw [hex] at hnf
  exact rl_run_inv env input.length (rl_init_state h0) input
    ⟨Nat.le_refl 0, fun j hj => rfl⟩ (by show (0:Nat) < LINE_LEN; decide)
    hw hnf

/-- C2 witness: a concrete session (type a, b, backspace, c, Enter) whose
trace states all satisfy the invariant. -/
theorem c2_cursor_length_invariant_witness :
    (HistWF hist_init ∧
      (readline env0 tios0 hist_init [97, 98, 8, 99, 10]).exit
        ≠ RLExit.full) ∧
    ∀ s ∈ (readline env0 tios0 hist_init [97, 98, 8, 99, 10]).trace,
      s.cursor ≤ s.length ∧ s.length < LINE_LEN :=
  ⟨⟨⟨by decide, by decide⟩, by decide⟩,
    c2_cursor_length_invariant env0 tios0 hist_init [97, 98, 8, 99, 10]
      ⟨by decide, by decide⟩ (by decide)⟩

/-- Helper: a buffer whose C string counts one word is not empty. -/
theorem cstring_ne_nil_of_one_word (s : Str) (h : count_words s = 1) :
    s ≠ [] := by
  intro hnil
  rw [hnil] at h
  simp [count_words, count_words_aux] at h

/-- Helper: the source PATH search equals its spec-side first-match
formulation for a non-empty search entry: walk the colon-separated PATH
(default when unset) and return the first regular-file entry, in the
first directory that has one, whose name has the entry as a prefix. -/
theorem search_in_path_spec_eq (fs : FS) (pv : Option Str) (e : Str)
    (he : e ≠ []) : search_in_path fs pv e = search_in_path_spec fs pv e := by
  simp only [search_in_path, search_in_path_spec]
  congr 1
  funext dir
  cases hl : fs_lookup fs dir with
  | none => simp [folder_contains, hl]
  | some entries =>
    simp only [folder_contains, hl, Option.bind_some]
    rw [if_neg (by simpa using he)]
    congr 1
    funext d
    by_cases hd : d.d_type = DT_REG
    · simp [DT_REG, hd]
    · have h8 : ¬ ((8 : Nat) = d.d_type) := fun h => hd (by rw [DT_REG]; exact h.symm)
      simp [DT_REG, hd, h8]
      exact fun h => absurd h.symm h8

/-- C8: with the buffer holding exactly one word that is neither a
`./`-run nor an absolute path (and no trailing `..`, no separator left of
the cursor), Tab completion is exactly the PATH search: walk the
colon-separated PATH directories (defaulting to /bin:/usr/bin when PATH
is unset) for the first regular-file entry whose name has the buffer as a
prefix — first directory wins, first matching entry per directory wins —
and commit it through the suggestion routine; concretely, with /bin/ls
present and PATH unset, typing l, Tab, Enter returns ls. -/
theorem c8_bare_command_path_completion (env : RLEnv) (st : RLState)
    (hw1 : count_words (cstring64 st.line) = 1)
    (hcur : 1 ≤ st.cursor)
    (hsep : is_separator (st.line (st.cursor - 1)) = false)
    (hdots : ¬ (2 ≤ st.cursor ∧ st.line (st.cursor - 1) = 46 ∧
      st.line (st.cursor - 2) = 46))
    (hrun : ¬ (2 ≤ st.cursor ∧ st.line 0 = 46 ∧ st.line 1 = 47))
    (habs : ¬ (1 ≤ st.cursor ∧ st.line 0 = 47)) :
    (readline_complete env st =
      match search_in_path_spec env.fs env.pathVar (cstring64 st.line) with
      | some d => readline_suggest st d.d_name d.d_type st.cursor
      | none => st) ∧
    (readline envLS tios0 hist_init [108, 9, 10]).result = some [108, 115] := by
  have hne : cstring64 st.line ≠ [] := cstring_ne_nil_of_one_word _ hw1
  constructor
  · simp only [readline_complete]
    rw [if_neg (by simp [hw1])]
    rw [if_neg (by simp [hsep])]
    rw [if_neg hdots]
    rw [if_neg (by simp)]
    simp only [readline_complete_core]
    rw [if_neg hrun, if_neg habs, if_pos hw1]
    rw [search_in_path_spec_eq env.fs env.pathVar _ hne]
  · decide

/-- C8 witness: the buffer "l" with the cursor after it satisfies every
hypothesis, and completion rewrites to the PATH search result. -/
theorem c8_bare_command_path_completion_witness :
    (count_words (cstring64 st_l.line) = 1 ∧ 1 ≤ st_l.cursor ∧
      is_separator (st_l.line (st_l.cursor - 1)) = false ∧
      ¬ (2 ≤ st_l.cursor ∧ st_l.line (st_l.cursor - 1) = 46 ∧
        st_l.line (st_l.cursor - 2) = 46) ∧
      ¬ (2 ≤ st_l.cursor ∧ st_l.line 0 = 46 ∧ st_l.line 1 = 47) ∧
      ¬ (1 ≤ st_l.cursor ∧ st_l.line 0 = 47)) ∧
    ((readline_complete envLS st_l =
      match search_in_path_spec envLS.fs envLS.pathVar (cstring64 st_l.line)
        with
      | some d => readline_suggest st_l d.d_name d.d_type st_l.cursor
      | none => st_l) ∧
    (readline envLS tios0 hist_init [108, 9, 10]).result = some [108, 115]) :=
  ⟨⟨by decide, by decide, by decide, by decide, by decide, by decide⟩,
    c8_bare_command_path_completion envLS st_l (by decide) (by decide)
      (by decide) (by decide) (by decide) (by decide)⟩
